import Mathlib

set_option autoImplicit false

/-!
Shallow embedding of `ts-changeset` (`src/Changeset.ts`, comparator registry
from `lib/Changeset.ts`).  JavaScript values are modelled by `JSValue`
(numbers as `Int`; the library only compares integral lengths and
thresholds), Immutable.js maps by insertion-ordered association lists
(`mapSet` replaces in place, appends new keys at the end, exactly the
iteration order Immutable.js exposes).  `Map.set k undefined` keeps the key
present, which the embedding mirrors by storing `JSValue.undef` as a value.
-/

namespace TsChangeset

mutual

inductive JSValue where
  | undef
  | null
  | bool (b : Bool)
  | num (n : Int)
  | str (s : String)
  | arr (elems : JSValueList)
  | regexp (source : String)

inductive JSValueList where
  | nil
  | cons (head : JSValue) (tail : JSValueList)

end

def JSValueList.length : JSValueList → Nat
  | .nil => 0
  | .cons _ tail => tail.length + 1

abbrev JSMap (α : Type) := List (String × α)

def mapGet? {α : Type} : JSMap α → String → Option α
  | [], _ => none
  | (k, v) :: rest, key => if k = key then some v else mapGet? rest key

def mapHas {α : Type} (m : JSMap α) (key : String) : Bool :=
  (mapGet? m key).isSome

def mapSet {α : Type} : JSMap α → String → α → JSMap α
  | [], key, v => [(key, v)]
  | (k, w) :: rest, key, v =>
    if k = key then (key, v) :: rest else (k, w) :: mapSet rest key v

/-- Immutable.js `update(key, updater)`: the updater receives the stored
value (or `undefined`, here `none`) and its result is stored back. -/
def mapUpdate {α : Type} (m : JSMap α) (key : String) (f : Option α → α) : JSMap α :=
  mapSet m key (f (mapGet? m key))

/-- Immutable.js `m1.merge(m2)`: every entry of `m2` written into `m1`. -/
def mapMerge {α : Type} (m1 m2 : JSMap α) : JSMap α :=
  m2.foldl (fun acc kv => mapSet acc kv.1 kv.2) m1

def mapOfList {α : Type} (entries : JSMap α) : JSMap α :=
  entries.foldl (fun acc kv => mapSet acc kv.1 kv.2) []

/-- JavaScript truthiness (`!!v`). -/
def truthy : JSValue → Bool
  | .undef => false
  | .null => false
  | .bool b => b
  | .num n => n != 0
  | .str s => s != ""
  | .arr _ => true
  | .regexp _ => true

/-- JavaScript `v == null` (loose equality with null). -/
def isNullish : JSValue → Bool
  | .undef => true
  | .null => true
  | _ => false

/-- JavaScript `v === ""` (strict equality with the empty string). -/
def isEmptyString : JSValue → Bool
  | .str s => s == ""
  | _ => false

mutual

/-- JavaScript `v.toString()` (only invoked on non-nullish values by the
library).  Arrays join their elements with `","`, nullish elements
rendering as the empty string. -/
def jsToString : JSValue → String
  | .undef => "undefined"
  | .null => "null"
  | .bool b => cond b "true" "false"
  | .num n => toString n
  | .str s => s
  | .arr elems => jsJoinElems elems
  | .regexp source => "/" ++ source ++ "/"

def jsJoinElems : JSValueList → String
  | .nil => ""
  | .cons head tail =>
    (if isNullish head then "" else jsToString head)
      ++ (match tail with | .nil => "" | .cons _ _ => ",")
      ++ jsJoinElems tail

end

/-- A regular expression: its source text plus its `test` predicate,
treated as opaque. -/
structure JSRegExp where
  source : String
  test : String → Bool

/-- JavaScript `ToNumber`, on the values the comparator registry can
receive.  `none` stands for NaN.  Non-numeric strings and multi-element
arrays are approximated as NaN; such values never reach the comparators
through `validateLength`. -/
def toNumber? : JSValue → Option Int
  | .undef => none
  | .null => some 0
  | .bool b => some (cond b 1 0)
  | .num n => some n
  | .str s => if s = "" then some 0 else s.toInt?
  | .arr .nil => some 0
  | .arr (.cons _ _) => none
  | .regexp _ => none

/-- JavaScript `a === b` where `b` is a number. -/
def jsStrictEqNum : JSValue → Int → Bool
  | .num n, b => n == b
  | _, _ => false

def compareEq (a : JSValue) (b : Int) : Bool := jsStrictEqNum a b

def compareNeq (a : JSValue) (b : Int) : Bool := !jsStrictEqNum a b

def compareGt (a : JSValue) (b : Int) : Bool :=
  match toNumber? a with
  | some x => decide (x > b)
  | none => false

def compareGte (a : JSValue) (b : Int) : Bool :=
  match toNumber? a with
  | some x => decide (x ≥ b)
  | none => false

def compareLt (a : JSValue) (b : Int) : Bool :=
  match toNumber? a with
  | some x => decide (x < b)
  | none => false

def compareLte (a : JSValue) (b : Int) : Bool :=
  match toNumber? a with
  | some x => decide (x ≤ b)
  | none => false

/-- The comparator registry from `lib/Changeset.ts`: symbolic aliases first,
then the word forms, in source order. -/
def COMPARISIONS : JSMap (JSValue → Int → Bool) :=
  [("==", compareEq), (">=", compareGte), ("<=", compareLte), ("!=", compareNeq),
   (">", compareGt), ("<", compareLt), ("eq", compareEq), ("gte", compareGte),
   ("lte", compareLte), ("neq", compareNeq), ("gt", compareGt), ("lt", compareLt)]

/-- `typeof value.length === "number"`: true exactly for strings and arrays
in this value model. -/
def hasNumericLength : JSValue → Bool
  | .str _ => true
  | .arr _ => true
  | _ => false

def numericLength : JSValue → Int
  | .str s => s.length
  | .arr elems => (elems.length : Nat)
  | _ => 0

/-- The length computed by `validateLength`:
`value = value == null ? [] : value;`
`length = value && typeof value.length === "number" ? +value.length : value`. -/
def lengthValue (value : JSValue) : JSValue :=
  let value := if isNullish value then .arr .nil else value
  if truthy value && hasNumericLength value then .num (numericLength value)
  else value

/-- `ChangesetError` record: `{message, values, meta}`; `meta` defaults to
`undefined`. -/
structure ChangesetError where
  message : String
  values : List JSValue
  meta : JSValue

/-- The changeset state: `defaults`, `changes`, `errors`, `modified`,
`valid`, as in the Immutable.Record base of class `Changeset`. -/
structure Changeset where
  defaults : JSMap JSValue
  changes : JSMap JSValue
  errors : JSMap (List ChangesetError)
  modified : JSMap Bool
  valid : Bool

namespace Changeset

/-- `new Changeset(defaults)`: only `defaults` is populated. -/
def new (defaults : JSMap JSValue) : Changeset :=
  { defaults := mapOfList defaults
    changes := []
    errors := []
    modified := []
    valid := true }

def isValid (cs : Changeset) : Bool := cs.valid

def isInvalid (cs : Changeset) : Bool := !cs.isValid

def hasChange (cs : Changeset) (field : String) : Bool :=
  mapHas cs.changes field

def getDefault (cs : Changeset) (field : String) (defaultValue : JSValue) : JSValue :=
  (mapGet? cs.defaults field).getD defaultValue

def getChange (cs : Changeset) (field : String) (defaultValue : JSValue) : JSValue :=
  (mapGet? cs.changes field).getD defaultValue

def getField (cs : Changeset) (field : String) (defaultValue : JSValue) : JSValue :=
  cs.getChange field (cs.getDefault field defaultValue)

def getModified (cs : Changeset) (field : String) : Bool :=
  (mapGet? cs.modified field).getD false

def getErrorList (cs : Changeset) (field : String) : List ChangesetError :=
  (mapGet? cs.errors field).getD []

def getErrors (cs : Changeset) : JSMap (List ChangesetError) := cs.errors

def getDefaults (cs : Changeset) : JSMap JSValue := cs.defaults

def getChanges (cs : Changeset) : JSMap JSValue := cs.changes

def applyChanges (cs : Changeset) : JSMap JSValue :=
  mapMerge cs.getDefaults cs.getChanges

def addError (cs : Changeset) (field : String) (message : String)
    (values : List JSValue) (meta : JSValue) : Changeset :=
  { cs with
    errors := mapUpdate cs.errors field
      (fun errors => (errors.getD []).concat ⟨message, values, meta⟩)
    valid := false }

def addChange (cs : Changeset) (field : String) (value : JSValue) : Changeset :=
  { cs with
    changes := mapSet cs.changes field value
    modified := mapSet cs.modified field true }

def addChanges (cs : Changeset) (changes : JSMap JSValue) : Changeset :=
  changes.foldl (fun acc kv => acc.addChange kv.1 kv.2) cs

def addDefault (cs : Changeset) (field : String) (value : JSValue) : Changeset :=
  { cs with defaults := mapSet cs.defaults field value }

def addDefaults (cs : Changeset) (defaults : JSMap JSValue) : Changeset :=
  defaults.foldl (fun acc kv => acc.addDefault kv.1 kv.2) cs

def clearErrors (cs : Changeset) : Changeset :=
  { cs with errors := [], valid := true }

def clearChanges (cs : Changeset) : Changeset :=
  { cs with changes := [], modified := [] }

def clearDefaults (cs : Changeset) : Changeset :=
  { cs with defaults := [] }

def clear (cs : Changeset) : Changeset :=
  cs.clearErrors.clearChanges

/-- The body of `filter`'s reduce: every copied value is read from the
pre-filter changeset (`this`), while the accumulator is rebuilt from a
cleared state. -/
def filterStep (cs acc : Changeset) (field : String) : Changeset :=
  { acc with
    changes :=
      if cs.hasChange field then
        mapSet acc.changes field ((mapGet? cs.changes field).getD .undef)
      else acc.changes
    errors := mapSet acc.errors field (cs.getErrorList field)
    modified := mapSet acc.modified field true }

def filter (cs : Changeset) (fields : List String) : Changeset :=
  fields.foldl cs.filterStep
    { cs with changes := [], errors := [], modified := [] }

/-- `validate(validator)` is plain application of the validator. -/
def validate (cs : Changeset) (validator : Changeset → Changeset) : Changeset :=
  validator cs

def validateAcceptance (cs : Changeset) (field : String) : Changeset :=
  if truthy (cs.getField field .undef) then cs
  else cs.addError field "acceptance" [] (.undef)

/-- The body of `validateRequired`'s reduce: note it reads the field from
the original changeset (`changeset.getField`), not the accumulator. -/
def requiredStep (cs acc : Changeset) (field : String) : Changeset :=
  if isNullish (cs.getField field .undef) || isEmptyString (cs.getField field .undef) then
    acc.addError field "required" [] .undef
  else acc

def validateRequired (cs : Changeset) (values : List String) : Changeset :=
  values.foldl cs.requiredStep cs

/-- `value == null ? "" : value.toString()` from `validateFormat`. -/
def formatString (value : JSValue) : String :=
  if isNullish value then "" else jsToString value

def validateFormat (cs : Changeset) (field : String) (regex : JSRegExp) : Changeset :=
  if regex.test (formatString (cs.getField field .undef)) then cs
  else cs.addError field "format" [.regexp regex.source] (.undef)

/-- The body of `validateLength`'s reduce, over the length computed once at
entry.  An unregistered operator name throws a `TypeError` (modelled as
`Except.error`); a failing comparator appends one `"length"` error. -/
def lengthStep (field : String) (length : JSValue) (acc : Changeset)
    (p : String × Int) : Except String Changeset :=
  match mapGet? COMPARISIONS p.1 with
  | some comparision =>
    pure
      (if comparision length p.2 then acc
       else acc.addError field "length" [.str p.1, .num p.2] .undef)
  | none => Except.error ("No comparision for " ++ p.1)

def validateLength (cs : Changeset) (field : String) (opts : List (String × Int)) :
    Except String Changeset :=
  opts.foldlM (lengthStep field (lengthValue (cs.getField field .undef))) cs

end Changeset

/-- True when no field of the errors map carries a non-empty error list. -/
def Changeset.errorsAllEmpty (cs : Changeset) : Bool :=
  cs.errors.all (fun e => e.2.isEmpty)

/-- The `"length"` error records a `validateLength` call appends for a fixed
computed length `ℓ`, in the iteration order of `opts`. -/
def lengthFailList (ℓ : JSValue) (opts : List (String × Int)) : List ChangesetError :=
  opts.filterMap fun p =>
    match mapGet? COMPARISIONS p.1 with
    | some comparision =>
      if comparision ℓ p.2 then none
      else some ⟨"length", [.str p.1, .num p.2], .undef⟩
    | none => none

/-- One call to a built-in validator. -/
inductive VCall where
  | acceptance (field : String)
  | length (field : String) (opts : List (String × Int))
  | required (fields : List String)
  | format (field : String) (regex : JSRegExp)

/-- Run one validator call; `validateLength` may throw. -/
def runV (cs : Changeset) : VCall → Except String Changeset
  | .acceptance field => .ok (cs.validateAcceptance field)
  | .length field opts => cs.validateLength field opts
  | .required fields => .ok (cs.validateRequired fields)
  | .format field regex => .ok (cs.validateFormat field regex)

/-- Run a sequence of validator calls; a thrown `TypeError` aborts. -/
def runVs (cs : Changeset) (calls : List VCall) : Except String Changeset :=
  calls.foldlM runV cs

/-- Changeset states reachable through the public operations of the class
(construction, the mutators, the validators — a `validateLength` step only
when it does not throw — `filter` and the `clear*` operations). -/
inductive Reachable : Changeset → Prop where
  | new (defaults : JSMap JSValue) : Reachable (Changeset.new defaults)
  | addChange {cs : Changeset} (field : String) (value : JSValue) :
      Reachable cs → Reachable (cs.addChange field value)
  | addChanges {cs : Changeset} (changes : JSMap JSValue) :
      Reachable cs → Reachable (cs.addChanges changes)
  | addDefault {cs : Changeset} (field : String) (value : JSValue) :
      Reachable cs → Reachable (cs.addDefault field value)
  | addDefaults {cs : Changeset} (defaults : JSMap JSValue) :
      Reachable cs → Reachable (cs.addDefaults defaults)
  | addError {cs : Changeset} (field message : String) (values : List JSValue)
      (meta : JSValue) : Reachable cs → Reachable (cs.addError field message values meta)
  | validateAcceptance {cs : Changeset} (field : String) :
      Reachable cs → Reachable (cs.validateAcceptance field)
  | validateRequired {cs : Changeset} (values : List String) :
      Reachable cs → Reachable (cs.validateRequired values)
  | validateFormat {cs : Changeset} (field : String) (regex : JSRegExp) :
      Reachable cs → Reachable (cs.validateFormat field regex)
  | validateLength {cs cs' : Changeset} (field : String) (opts : List (String × Int)) :
      Reachable cs → cs.validateLength field opts = .ok cs' → Reachable cs'
  | filter {cs : Changeset} (fields : List String) :
      Reachable cs → Reachable (cs.filter fields)
  | clearErrors {cs : Changeset} : Reachable cs → Reachable cs.clearErrors
  | clearChanges {cs : Changeset} : Reachable cs → Reachable cs.clearChanges
  | clearDefaults {cs : Changeset} : Reachable cs → Reachable cs.clearDefaults
  | clear {cs : Changeset} : Reachable cs → Reachable cs.clear

/-- `cs'` extends `cs`: invalidity is preserved and every field's error
list is extended on the right (no existing record removed). -/
def ErrorsExtend (cs cs' : Changeset) : Prop :=
  (cs.valid = false → cs'.valid = false) ∧
  ∀ f, ∃ t, cs'.getErrorList f = cs.getErrorList f ++ t

section MapLemmas

variable {α : Type}

theorem mapGet?_mapSet (m : JSMap α) (k k' : String) (v : α) :
    mapGet? (mapSet m k v) k' = if k = k' then some v else mapGet? m k' := by
  induction m with
  | nil => simp [mapSet, mapGet?]
  | cons kv rest ih =>
    obtain ⟨k0, v0⟩ := kv
    by_cases h : k0 = k
    · subst h
      simp only [mapSet, if_pos rfl, mapGet?]
      split <;> rfl
    · by_cases h2 : k0 = k'
      · have hkk : ¬(k = k') := fun e => h (h2.trans e.symm)
        have hkk' : ¬(k' = k) := fun e => hkk e.symm
        simp [mapSet, mapGet?, h, h2, hkk, hkk']
      · simp [mapSet, mapGet?, h, h2, ih]

theorem mapHas_mapSet (m : JSMap α) (k k' : String) (v : α) :
    mapHas (mapSet m k v) k' = (k = k' || mapHas m k') := by
  simp only [mapHas, mapGet?_mapSet]
  by_cases h : k = k' <;> simp [h]

theorem mapGet?_mem (m : JSMap α) (k : String) (v : α) :
    mapGet? m k = some v → (k, v) ∈ m := by
  induction m with
  | nil => simp [mapGet?]
  | cons kv rest ih =>
    obtain ⟨k0, v0⟩ := kv
    by_cases h : k0 = k
    · subst h
      intro hv
      have hv' : v0 = v := by simpa [mapGet?] using hv
      subst hv'
      exact List.mem_cons_self _ _
    · intro hv
      have hv' : mapGet? rest k = some v := by simpa [mapGet?, h] using hv
      exact List.mem_cons_of_mem _ (ih hv')

theorem mapGet?_isSome_iff : ∀ (m : JSMap α) (k : String),
    (mapGet? m k).isSome = true ↔ k ∈ m.map Prod.fst
  | [], k => by simp [mapGet?]
  | (k0, v0) :: rest, k => by
    by_cases h : k0 = k
    · subst h
      simp [mapGet?]
    · have h' : ¬(k = k0) := fun e => h e.symm
      simp [mapGet?, h, h', mapGet?_isSome_iff rest k]

theorem mapGet?_mapMerge (m1 m2 : JSMap α) (k : String)
    (h : (m2.map Prod.fst).Nodup) :
    mapGet? (mapMerge m1 m2) k = (mapGet? m2 k).or (mapGet? m1 k) := by
  induction m2 generalizing m1 with
  | nil => simp [mapMerge, mapGet?, Option.or]
  | cons kv rest ih =>
    obtain ⟨k0, v0⟩ := kv
    simp only [List.map_cons, List.nodup_cons] at h
    have step : mapMerge m1 ((k0, v0) :: rest) = mapMerge (mapSet m1 k0 v0) rest := rfl
    rw [step, ih _ h.2]
    simp only [mapGet?]
    by_cases hk : k0 = k
    · subst hk
      have hnone : mapGet? rest k0 = none := by
        cases hcase : mapGet? rest k0 with
        | none => rfl
        | some w =>
          exact absurd (List.mem_map_of_mem Prod.fst (mapGet?_mem _ _ _ hcase)) h.1
      simp [hnone, mapGet?_mapSet, Option.or]
    · simp [hk, mapGet?_mapSet]

end MapLemmas

section ChangesetLemmas

open Changeset

theorem getErrorList_addError (cs : Changeset) (f m : String) (vs : List JSValue)
    (mt : JSValue) (g : String) :
    (cs.addError f m vs mt).getErrorList g =
      if f = g then cs.getErrorList g ++ [⟨m, vs, mt⟩] else cs.getErrorList g := by
  simp only [getErrorList, addError, mapUpdate, mapGet?_mapSet]
  by_cases h : f = g <;> simp [h, List.concat_eq_append]

theorem errorsExtend_refl (cs : Changeset) : ErrorsExtend cs cs :=
  ⟨id, fun f => ⟨[], by simp⟩⟩

theorem errorsExtend_trans {a b c : Changeset} (h1 : ErrorsExtend a b)
    (h2 : ErrorsExtend b c) : ErrorsExtend a c := by
  refine ⟨fun h => h2.1 (h1.1 h), fun f => ?_⟩
  obtain ⟨t1, e1⟩ := h1.2 f
  obtain ⟨t2, e2⟩ := h2.2 f
  exact ⟨t1 ++ t2, by rw [e2, e1, List.append_assoc]⟩

theorem errorsExtend_addError (cs : Changeset) (f m : String) (vs : List JSValue)
    (mt : JSValue) : ErrorsExtend cs (cs.addError f m vs mt) := by
  refine ⟨fun _ => rfl, fun g => ?_⟩
  by_cases h : f = g
  · exact ⟨[⟨m, vs, mt⟩], by rw [getErrorList_addError]; simp [h]⟩
  · exact ⟨[], by rw [getErrorList_addError]; simp [h]⟩

theorem errorsExtend_foldl {β : Type} (step : Changeset → β → Changeset)
    (hstep : ∀ acc b, ErrorsExtend acc (step acc b)) :
    ∀ (l : List β) (acc : Changeset), ErrorsExtend acc (l.foldl step acc)
  | [], acc => errorsExtend_refl acc
  | b :: l, acc =>
    errorsExtend_trans (hstep acc b) (errorsExtend_foldl step hstep l (step acc b))

theorem errorsExtend_foldlM {β : Type} (step : Changeset → β → Except String Changeset)
    (hstep : ∀ acc b cs', step acc b = .ok cs' → ErrorsExtend acc cs') :
    ∀ (l : List β) (acc out : Changeset),
      l.foldlM step acc = .ok out → ErrorsExtend acc out := by
  intro l
  induction l with
  | nil =>
    intro acc out h
    obtain rfl : acc = out := by simpa [List.foldlM, pure, Except.pure] using h
    exact errorsExtend_refl acc
  | cons b l ih =>
    intro acc out h
    cases hs : step acc b with
    | error e => simp [List.foldlM_cons, hs, bind, Except.bind] at h
    | ok acc' =>
      simp only [List.foldlM_cons, hs, bind, Except.bind] at h
      exact errorsExtend_trans (hstep acc b acc' hs) (ih acc' out h)

theorem errorsExtend_validateAcceptance (cs : Changeset) (f : String) :
    ErrorsExtend cs (cs.validateAcceptance f) := by
  unfold Changeset.validateAcceptance
  split
  · exact errorsExtend_refl cs
  · exact errorsExtend_addError cs f "acceptance" [] .undef

theorem errorsExtend_validateFormat (cs : Changeset) (f : String) (regex : JSRegExp) :
    ErrorsExtend cs (cs.validateFormat f regex) := by
  unfold Changeset.validateFormat
  split
  · exact errorsExtend_refl cs
  · exact errorsExtend_addError cs f "format" [.regexp regex.source] .undef

theorem errorsExtend_requiredStep (cs acc : Changeset) (field : String) :
    ErrorsExtend acc (cs.requiredStep acc field) := by
  unfold Changeset.requiredStep
  split
  · exact errorsExtend_addError acc field "required" [] .undef
  · exact errorsExtend_refl acc

theorem errorsExtend_validateRequired (cs : Changeset) (values : List String) :
    ErrorsExtend cs (cs.validateRequired values) :=
  errorsExtend_foldl cs.requiredStep (errorsExtend_requiredStep cs) values cs

theorem errorsExtend_lengthStep (field : String) (len : JSValue) (acc : Changeset)
    (p : String × Int) (cs' : Changeset) (h : lengthStep field len acc p = .ok cs') :
    ErrorsExtend acc cs' := by
  unfold Changeset.lengthStep at h
  cases hc : mapGet? COMPARISIONS p.1 with
  | none => rw [hc] at h; cases h
  | some comparision =>
    rw [hc] at h
    obtain rfl : _ = cs' := by simpa [pure, Except.pure] using h
    split
    · exact errorsExtend_refl acc
    · exact errorsExtend_addError acc field "length" [.str p.1, .num p.2] .undef

theorem errorsExtend_validateLength (cs : Changeset) (field : String)
    (opts : List (String × Int)) (out : Changeset)
    (h : cs.validateLength field opts = .ok out) : ErrorsExtend cs out :=
  errorsExtend_foldlM _ (errorsExtend_lengthStep field _) opts cs out h

theorem errorsExtend_runV (cs : Changeset) (v : VCall) (out : Changeset)
    (h : runV cs v = .ok out) : ErrorsExtend cs out := by
  cases v with
  | acceptance f =>
    obtain rfl : _ = out := by simpa [runV] using h
    exact errorsExtend_validateAcceptance cs f
  | length f opts => exact errorsExtend_validateLength cs f opts out h
  | required fs =>
    obtain rfl : _ = out := by simpa [runV] using h
    exact errorsExtend_validateRequired cs fs
  | format f regex =>
    obtain rfl : _ = out := by simpa [runV] using h
    exact errorsExtend_validateFormat cs f regex

theorem errorsExtend_runVs (cs : Changeset) (calls : List VCall) (out : Changeset)
    (h : runVs cs calls = .ok out) : ErrorsExtend cs out :=
  errorsExtend_foldlM runV errorsExtend_runV calls cs out h

end ChangesetLemmas

section ValidInvariant

open Changeset

theorem addChanges_errors_valid : ∀ (m : JSMap JSValue) (cs : Changeset),
    (cs.addChanges m).errors = cs.errors ∧ (cs.addChanges m).valid = cs.valid
  | [], _ => ⟨rfl, rfl⟩
  | kv :: m, cs => addChanges_errors_valid m (cs.addChange kv.1 kv.2)

theorem addDefaults_errors_valid : ∀ (m : JSMap JSValue) (cs : Changeset),
    (cs.addDefaults m).errors = cs.errors ∧ (cs.addDefaults m).valid = cs.valid
  | [], _ => ⟨rfl, rfl⟩
  | kv :: m, cs => addDefaults_errors_valid m (cs.addDefault kv.1 kv.2)

theorem foldl_valid_false {β : Type} (step : Changeset → β → Changeset)
    (hs : ∀ acc b, step acc b = acc ∨ ∃ f m vs mt, step acc b = acc.addError f m vs mt) :
    ∀ (l : List β) (acc : Changeset), acc.valid = false → (l.foldl step acc).valid = false
  | [], _, h => h
  | b :: l, acc, h => by
    rcases hs acc b with he | ⟨f, m, vs, mt, he⟩
    · rw [List.foldl_cons, he]
      exact foldl_valid_false step hs l acc h
    · rw [List.foldl_cons, he]
      exact foldl_valid_false step hs l _ rfl

theorem foldl_eq_of_valid {β : Type} (step : Changeset → β → Changeset)
    (hs : ∀ acc b, step acc b = acc ∨ ∃ f m vs mt, step acc b = acc.addError f m vs mt) :
    ∀ (l : List β) (acc : Changeset), (l.foldl step acc).valid = true → l.foldl step acc = acc
  | [], _, _ => rfl
  | b :: l, acc, h => by
    rcases hs acc b with he | ⟨f, m, vs, mt, he⟩
    · rw [List.foldl_cons, he] at h ⊢
      exact foldl_eq_of_valid step hs l acc h
    · exfalso
      rw [List.foldl_cons, he] at h
      have hf := foldl_valid_false step hs l (acc.addError f m vs mt) rfl
      rw [h] at hf
      simp at hf

theorem lengthStep_cases (field : String) (len : JSValue) (acc : Changeset)
    (p : String × Int) (cs' : Changeset) (h : lengthStep field len acc p = .ok cs') :
    cs' = acc ∨ ∃ f m vs mt, cs' = acc.addError f m vs mt := by
  unfold Changeset.lengthStep at h
  cases hc : mapGet? COMPARISIONS p.1 with
  | none => rw [hc] at h; cases h
  | some comparision =>
    rw [hc] at h
    have he : (if comparision len p.2 then acc
        else acc.addError field "length" [.str p.1, .num p.2] .undef) = cs' := by
      simpa [pure, Except.pure] using h
    rw [← he]
    split
    · exact Or.inl rfl
    · exact Or.inr ⟨field, "length", [.str p.1, .num p.2], .undef, rfl⟩

theorem foldlM_valid_false {β : Type} (step : Changeset → β → Except String Changeset)
    (hs : ∀ acc b cs', step acc b = .ok cs' →
      cs' = acc ∨ ∃ f m vs mt, cs' = acc.addError f m vs mt) :
    ∀ (l : List β) (acc out : Changeset),
      l.foldlM step acc = .ok out → acc.valid = false → out.valid = false := by
  intro l
  induction l with
  | nil =>
    intro acc out h hv
    obtain rfl : acc = out := by simpa [List.foldlM, pure, Except.pure] using h
    exact hv
  | cons b l ih =>
    intro acc out h hv
    cases hs0 : step acc b with
    | error e => simp [List.foldlM_cons, hs0, bind, Except.bind] at h
    | ok acc' =>
      simp only [List.foldlM_cons, hs0, bind, Except.bind] at h
      rcases hs acc b acc' hs0 with he | ⟨f, m, vs, mt, he⟩
      · exact ih acc' out h (he ▸ hv)
      · exact ih acc' out h (he ▸ rfl)

theorem foldlM_eq_of_valid {β : Type} (step : Changeset → β → Except String Changeset)
    (hs : ∀ acc b cs', step acc b = .ok cs' →
      cs' = acc ∨ ∃ f m vs mt, cs' = acc.addError f m vs mt) :
    ∀ (l : List β) (acc out : Changeset),
      l.foldlM step acc = .ok out → out.valid = true → out = acc := by
  intro l
  induction l with
  | nil =>
    intro acc out h _
    obtain rfl : acc = out := by simpa [List.foldlM, pure, Except.pure] using h
    rfl
  | cons b l ih =>
    intro acc out h hv
    cases hs0 : step acc b with
    | error e => simp [List.foldlM_cons, hs0, bind, Except.bind] at h
    | ok acc' =>
      simp only [List.foldlM_cons, hs0, bind, Except.bind] at h
      rcases hs acc b acc' hs0 with he | ⟨f, m, vs, mt, he⟩
      · exact (ih acc' out h hv).trans he
      · exfalso
        have hf := foldlM_valid_false step hs l acc' out h (he ▸ rfl)
        rw [hv] at hf
        simp at hf

theorem validateAcceptance_eq_of_valid (cs : Changeset) (f : String)
    (h : (cs.validateAcceptance f).valid = true) : cs.validateAcceptance f = cs := by
  unfold Changeset.validateAcceptance at h ⊢
  by_cases hc : truthy (cs.getField f .undef) = true
  · simp [hc]
  · rw [if_neg hc] at h
    cases h

theorem validateFormat_eq_of_valid (cs : Changeset) (f : String) (regex : JSRegExp)
    (h : (cs.validateFormat f regex).valid = true) : cs.validateFormat f regex = cs := by
  unfold Changeset.validateFormat at h ⊢
  by_cases hc : regex.test (formatString (cs.getField f .undef)) = true
  · simp [hc]
  · rw [if_neg hc] at h
    cases h

theorem requiredStep_cases (cs acc : Changeset) (field : String) :
    cs.requiredStep acc field = acc ∨
      ∃ f m vs mt, cs.requiredStep acc field = acc.addError f m vs mt := by
  unfold Changeset.requiredStep
  split
  · exact Or.inr ⟨field, "required", [], .undef, rfl⟩
  · exact Or.inl rfl

theorem validateRequired_eq_of_valid (cs : Changeset) (values : List String)
    (h : (cs.validateRequired values).valid = true) : cs.validateRequired values = cs :=
  foldl_eq_of_valid cs.requiredStep (requiredStep_cases cs) values cs h

theorem validateLength_eq_of_valid (cs : Changeset) (field : String)
    (opts : List (String × Int)) (out : Changeset)
    (h : cs.validateLength field opts = .ok out) (hv : out.valid = true) : out = cs :=
  foldlM_eq_of_valid _ (lengthStep_cases field _) opts cs out h hv

theorem foldl_filterStep_valid (cs : Changeset) :
    ∀ (l : List String) (acc : Changeset), (l.foldl cs.filterStep acc).valid = acc.valid
  | [], _ => rfl
  | b :: l, acc => foldl_filterStep_valid cs l (cs.filterStep acc b)

theorem filter_valid (cs : Changeset) (fields : List String) :
    (cs.filter fields).valid = cs.valid :=
  foldl_filterStep_valid cs fields _

theorem mapSet_all {α : Type} (p : α → Bool) :
    ∀ (m : JSMap α) (k : String) (v : α),
      m.all (fun kv => p kv.2) = true → p v = true →
      (mapSet m k v).all (fun kv => p kv.2) = true
  | [], k, v, _, hv => by simp [mapSet, hv]
  | (k0, v0) :: rest, k, v, hm, hv => by
    simp only [List.all_cons, Bool.and_eq_true] at hm
    by_cases h : k0 = k
    · simp [mapSet, h, hv, hm.2]
    · simp only [mapSet, if_neg h, List.all_cons, Bool.and_eq_true]
      exact ⟨hm.1, mapSet_all p rest k v hm.2 hv⟩

theorem getErrorList_eq_nil (cs : Changeset) (h : cs.errorsAllEmpty = true)
    (f : String) : cs.getErrorList f = [] := by
  unfold Changeset.errorsAllEmpty at h
  unfold Changeset.getErrorList
  cases hc : mapGet? cs.errors f with
  | none => rfl
  | some l =>
    have hmem := mapGet?_mem _ _ _ hc
    have hl := List.all_eq_true.mp h _ hmem
    simpa [List.isEmpty_iff] using hl

theorem foldl_filterStep_errorsAllEmpty (cs : Changeset)
    (h : ∀ f, cs.getErrorList f = []) :
    ∀ (l : List String) (acc : Changeset), acc.errorsAllEmpty = true →
      (l.foldl cs.filterStep acc).errorsAllEmpty = true
  | [], _, ha => ha
  | b :: l, acc, ha => by
    refine foldl_filterStep_errorsAllEmpty cs h l _ ?_
    unfold Changeset.errorsAllEmpty at ha ⊢
    unfold Changeset.filterStep
    exact mapSet_all List.isEmpty acc.errors b _ ha (by rw [h b]; rfl)

theorem reachable_valid_errorsAllEmpty {cs : Changeset} (h : Reachable cs) :
    cs.valid = true → cs.errorsAllEmpty = true := by
  induction h with
  | new defaults => intro _; rfl
  | addChange field value _ ih => exact fun hv => ih hv
  | addChanges changes _ ih =>
    rename_i cs0 _
    intro hv
    have e := addChanges_errors_valid changes cs0
    unfold Changeset.errorsAllEmpty
    rw [e.1]
    exact ih (by rw [← e.2]; exact hv)
  | addDefault field value _ ih => exact fun hv => ih hv
  | addDefaults defaults _ ih =>
    rename_i cs0 _
    intro hv
    have e := addDefaults_errors_valid defaults cs0
    unfold Changeset.errorsAllEmpty
    rw [e.1]
    exact ih (by rw [← e.2]; exact hv)
  | addError field message values meta _ ih => intro hv; cases hv
  | validateAcceptance field _ ih =>
    rename_i cs0 _
    intro hv
    have e := validateAcceptance_eq_of_valid cs0 field hv
    rw [e] at hv ⊢
    exact ih hv
  | validateRequired values _ ih =>
    rename_i cs0 _
    intro hv
    have e := validateRequired_eq_of_valid cs0 values hv
    rw [e] at hv ⊢
    exact ih hv
  | validateFormat field regex _ ih =>
    rename_i cs0 _
    intro hv
    have e := validateFormat_eq_of_valid cs0 field regex hv
    rw [e] at hv ⊢
    exact ih hv
  | validateLength field opts _ hok ih =>
    rename_i cs0 cs' _
    intro hv
    have e := validateLength_eq_of_valid cs0 field opts cs' hok hv
    rw [e] at hv ⊢
    exact ih hv
  | filter fields _ ih =>
    rename_i cs0 _
    intro hv
    have hv0 : cs0.valid = true := by rw [← filter_valid cs0 fields]; exact hv
    have hall := ih hv0
    unfold Changeset.filter
    exact foldl_filterStep_errorsAllEmpty cs0 (getErrorList_eq_nil cs0 hall) fields _ rfl
  | clearErrors _ _ => intro _; rfl
  | clearChanges _ ih => exact fun hv => ih hv
  | clearDefaults _ ih => exact fun hv => ih hv
  | clear _ _ => intro _; rfl

end ValidInvariant

section FilterLemmas

open Changeset

theorem foldl_filterStep_defaults (cs : Changeset) :
    ∀ (l : List String) (acc : Changeset), (l.foldl cs.filterStep acc).defaults = acc.defaults
  | [], _ => rfl
  | b :: l, acc => foldl_filterStep_defaults cs l (cs.filterStep acc b)

theorem foldl_filterStep_errors_get (cs : Changeset) :
    ∀ (l : List String) (acc : Changeset) (g : String),
      mapGet? (l.foldl cs.filterStep acc).errors g =
        if g ∈ l then some (cs.getErrorList g) else mapGet? acc.errors g
  | [], acc, g => by simp
  | b :: l, acc, g => by
    rw [List.foldl_cons, foldl_filterStep_errors_get cs l (cs.filterStep acc b) g]
    unfold Changeset.filterStep
    dsimp only
    rw [mapGet?_mapSet]
    by_cases hg : g ∈ l
    · simp [hg, List.mem_cons]
    · by_cases hb : b = g
      · subst hb
        simp [hg, List.mem_cons]
      · have hgb : ¬(g = b) := fun e => hb e.symm
        simp [hg, hb, hgb, List.mem_cons]

theorem foldl_filterStep_modified_get (cs : Changeset) :
    ∀ (l : List String) (acc : Changeset) (g : String),
      mapGet? (l.foldl cs.filterStep acc).modified g =
        if g ∈ l then some true else mapGet? acc.modified g
  | [], acc, g => by simp
  | b :: l, acc, g => by
    rw [List.foldl_cons, foldl_filterStep_modified_get cs l (cs.filterStep acc b) g]
    unfold Changeset.filterStep
    dsimp only
    rw [mapGet?_mapSet]
    by_cases hg : g ∈ l
    · simp [hg, List.mem_cons]
    · by_cases hb : b = g
      · subst hb
        simp [hg, List.mem_cons]
      · have hgb : ¬(g = b) := fun e => hb e.symm
        simp [hg, hb, hgb, List.mem_cons]

theorem foldl_filterStep_changes_get (cs : Changeset) :
    ∀ (l : List String) (acc : Changeset) (g : String),
      mapGet? (l.foldl cs.filterStep acc).changes g =
        if g ∈ l ∧ cs.hasChange g = true then mapGet? cs.changes g
        else mapGet? acc.changes g
  | [], acc, g => by simp
  | b :: l, acc, g => by
    rw [List.foldl_cons, foldl_filterStep_changes_get cs l (cs.filterStep acc b) g]
    unfold Changeset.filterStep
    dsimp only
    by_cases hg : g ∈ l
    · by_cases hc : cs.hasChange g = true
      · have h1 : g ∈ l ∧ cs.hasChange g = true := ⟨hg, hc⟩
        have h2 : g ∈ b :: l ∧ cs.hasChange g = true := ⟨List.mem_cons_of_mem b hg, hc⟩
        rw [if_pos h1, if_pos h2]
      · have h1 : ¬(g ∈ l ∧ cs.hasChange g = true) := fun hand => hc hand.2
        have h2 : ¬(g ∈ b :: l ∧ cs.hasChange g = true) := fun hand => hc hand.2
        rw [if_neg h1, if_neg h2]
        by_cases hb : b = g
        · subst hb
          rw [if_neg hc]
        · split
          · rw [mapGet?_mapSet, if_neg hb]
          · rfl
    · have h1 : ¬(g ∈ l ∧ cs.hasChange g = true) := fun hand => hg hand.1
      rw [if_neg h1]
      by_cases hb : b = g
      · subst hb
        by_cases hc : cs.hasChange b = true
        · have h2 : b ∈ b :: l ∧ cs.hasChange b = true := ⟨List.mem_cons_self b l, hc⟩
          rw [if_pos h2, if_pos hc, mapGet?_mapSet, if_pos rfl]
          unfold Changeset.hasChange mapHas at hc
          cases hcv : mapGet? cs.changes b with
          | none => rw [hcv] at hc; cases hc
          | some v => rfl
        · have h2 : ¬(b ∈ b :: l ∧ cs.hasChange b = true) := fun hand => hc hand.2
          rw [if_neg h2, if_neg hc]
      · have hcons : ¬(g ∈ b :: l) := fun hmem => by
          rcases List.mem_cons.mp hmem with he | hl
          · exact hb he.symm
          · exact hg hl
        have h2 : ¬(g ∈ b :: l ∧ cs.hasChange g = true) := fun hand => hcons hand.1
        rw [if_neg h2]
        split
        · rw [mapGet?_mapSet, if_neg hb]
        · rfl

end FilterLemmas

section ValidatorLemmas

open Changeset

theorem validateLength_error_aux (field : String) (len : JSValue) :
    ∀ (opts : List (String × Int)) (acc : Changeset),
      (∃ p ∈ opts, mapGet? COMPARISIONS p.1 = none) →
      ∃ op, mapGet? COMPARISIONS op = none ∧
        opts.foldlM (lengthStep field len) acc = .error ("No comparision for " ++ op)
  | [], _, h => by simp at h
  | p :: opts, acc, h => by
    cases hc : mapGet? COMPARISIONS p.1 with
    | none =>
      refine ⟨p.1, hc, ?_⟩
      rw [List.foldlM_cons]
      simp [Changeset.lengthStep, hc, bind, Except.bind]
    | some comparision =>
      obtain ⟨q, hq, hqn⟩ := h
      rcases List.mem_cons.mp hq with rfl | hq'
      · rw [hqn] at hc; cases hc
      · have hstep : lengthStep field len acc p =
            .ok (if comparision len p.2 then acc
                 else acc.addError field "length" [.str p.1, .num p.2] .undef) := by
          unfold Changeset.lengthStep
          rw [hc]
          rfl
        obtain ⟨op, hop, he⟩ :=
          validateLength_error_aux field len opts
            (if comparision len p.2 then acc
             else acc.addError field "length" [.str p.1, .num p.2] .undef)
            ⟨q, hq', hqn⟩
        refine ⟨op, hop, ?_⟩
        rw [List.foldlM_cons]
        simp only [hstep, bind, Except.bind]
        exact he

theorem validateLength_ok_aux (field : String) (len : JSValue) :
    ∀ (opts : List (String × Int)) (acc : Changeset),
      (∀ p ∈ opts, (mapGet? COMPARISIONS p.1).isSome = true) →
      ∃ out, opts.foldlM (lengthStep field len) acc = .ok out
        ∧ (∀ g, out.getErrorList g =
            acc.getErrorList g ++ (if g = field then lengthFailList len opts else []))
        ∧ out.changes = acc.changes ∧ out.defaults = acc.defaults
        ∧ out.modified = acc.modified
        ∧ out.valid = (acc.valid && (lengthFailList len opts).isEmpty)
  | [], acc, _ => by
    refine ⟨acc, rfl, fun g => ?_, rfl, rfl, rfl, by simp [lengthFailList]⟩
    split <;> simp [lengthFailList]
  | p :: opts, acc, h => by
    have hp := h p (List.mem_cons_self p opts)
    cases hc : mapGet? COMPARISIONS p.1 with
    | none => rw [hc] at hp; cases hp
    | some comparision =>
      have hrest : ∀ q ∈ opts, (mapGet? COMPARISIONS q.1).isSome = true :=
        fun q hq => h q (List.mem_cons_of_mem p hq)
      have hfail : lengthFailList len (p :: opts) =
          (if comparision len p.2 then ([] : List ChangesetError)
           else [⟨"length", [.str p.1, .num p.2], .undef⟩]) ++ lengthFailList len opts := by
        unfold lengthFailList
        rw [List.filterMap_cons, hc]
        by_cases h0 : comparision len p.2 = true
        · simp [h0]
        · simp [h0]
      by_cases hcmp : comparision len p.2 = true
      · have hstep : lengthStep field len acc p = .ok acc := by
          unfold Changeset.lengthStep
          rw [hc]
          dsimp only
          rw [if_pos hcmp]
          rfl
        obtain ⟨out, ho, herr, hch, hdf, hmd, hvd⟩ :=
          validateLength_ok_aux field len opts acc hrest
        refine ⟨out, ?_, ?_, hch, hdf, hmd, ?_⟩
        · rw [List.foldlM_cons]
          simp only [hstep, bind, Except.bind]
          exact ho
        · intro g
          rw [herr g, hfail, if_pos hcmp]
          simp
        · rw [hvd, hfail, if_pos hcmp]
          simp
      · have hcmp' : comparision len p.2 = false := by
          cases hv : comparision len p.2
          · rfl
          · exact absurd hv hcmp
        have hstep : lengthStep field len acc p =
            .ok (acc.addError field "length" [.str p.1, .num p.2] .undef) := by
          unfold Changeset.lengthStep
          rw [hc]
          dsimp only
          rw [if_neg hcmp]
          rfl
        obtain ⟨out, ho, herr, hch, hdf, hmd, hvd⟩ :=
          validateLength_ok_aux field len opts
            (acc.addError field "length" [.str p.1, .num p.2] .undef) hrest
        refine ⟨out, ?_, ?_, hch, hdf, hmd, ?_⟩
        · rw [List.foldlM_cons]
          simp only [hstep, bind, Except.bind]
          exact ho
        · intro g
          rw [herr g, getErrorList_addError, hfail]
          by_cases hg : g = field
          · subst hg
            simp [hcmp', List.append_assoc]
          · have hfg : ¬(field = g) := fun e => hg e.symm
            simp [hg, hfg]
        · rw [hvd, hfail]
          simp [hcmp', Changeset.addError]

theorem validateRequired_fold_aux (cs : Changeset) (f : String) :
    ∀ (l : List String) (acc : Changeset),
      (l.foldl cs.requiredStep acc).getErrorList f =
        acc.getErrorList f ++
          List.replicate
            (if (isNullish (cs.getField f .undef) || isEmptyString (cs.getField f .undef)) = true
             then l.count f else 0)
            ⟨"required", [], .undef⟩
  | [], acc => by
    split <;> simp
  | b :: l, acc => by
    rw [List.foldl_cons, validateRequired_fold_aux cs f l (cs.requiredStep acc b)]
    unfold Changeset.requiredStep
    by_cases hb : b = f
    · subst hb
      by_cases hm : (isNullish (cs.getField b .undef) || isEmptyString (cs.getField b .undef)) = true
      · rw [if_pos hm, if_pos hm, if_pos hm, getErrorList_addError, if_pos rfl,
          List.count_cons_self, List.replicate_succ, List.append_assoc]
        rfl
      · rw [if_neg hm, if_neg hm, if_neg hm]
    · have hbf : (b == f) = false := by simp [hb]
      have hcount : (b :: l).count f = l.count f := by
        simp [List.count_cons, hbf]
      rw [hcount]
      split
      · rw [getErrorList_addError, if_neg hb]
      · rfl

end ValidatorLemmas

section ClaimTheorems

open Changeset

/-- C1, counterexample: the state reached by `new({})`, `addError("b", "boom")`,
`filter(["a"])` is reachable through the public operations, its errors map
contains no field with a non-empty error list (its only entry is `"a" ↦ []`),
and yet `isValid()` is `false` — `filter` drops the erroring field but never
resets `valid`, so the claimed equivalence fails. -/
theorem filter_breaks_valid_iff_errors :
    Reachable (((Changeset.new []).addError "b" "boom" [] .undef).filter ["a"])
    ∧ (((Changeset.new []).addError "b" "boom" [] .undef).filter ["a"]).errorsAllEmpty = true
    ∧ (((Changeset.new []).addError "b" "boom" [] .undef).filter ["a"]).isValid = false :=
  ⟨Reachable.filter ["a"] (Reachable.addError "b" "boom" [] .undef (Reachable.new [])),
   rfl, rfl⟩

/-- C1 (amended): for every changeset state reachable through the public
operations, `isValid() = true` implies the errors map contains no field with
a non-empty error list.  (The converse direction of the claimed equivalence
fails after `filter`, which can drop every erroring field while leaving
`valid = false`.) -/
theorem reachable_isValid_implies_no_errors {cs : Changeset} (h : Reachable cs)
    (hv : cs.isValid = true) : ∀ p ∈ cs.getErrors, p.2 = [] := by
  have hall := reachable_valid_errorsAllEmpty h hv
  intro p hp
  have hp' := List.all_eq_true.mp hall p hp
  simpa [List.isEmpty_iff] using hp'

/-- C1 witness: the amended theorem applied to the reachable, valid state
`new({x:1}).filter(["a"])`, whose errors map is `{a: []}`. -/
theorem reachable_isValid_implies_no_errors_witness :
    ("a", ([] : List ChangesetError)).2 = [] :=
  reachable_isValid_implies_no_errors
    (Reachable.filter ["a"] (Reachable.new [("x", .num 1)])) rfl
    ("a", []) (List.mem_cons_self _ _)

/-- C2: over any sequence of validator calls that completes without a
configuration error, invalidity is preserved (once `isValid()` is false it
stays false) and every field's existing error list is only ever extended on
the right — no validator removes an error record or restores validity. -/
theorem validator_sequence_monotone (cs : Changeset) (calls : List VCall)
    (out : Changeset) (h : runVs cs calls = .ok out) :
    (cs.isValid = false → out.isValid = false) ∧
    ∀ f, ∃ t, out.getErrorList f = cs.getErrorList f ++ t :=
  errorsExtend_runVs cs calls out h

/-- C2 witness: the theorem applied to the invalid state
`new({}).addError("a","boom")` and the call sequence
`[validateRequired(["x"])]`. -/
theorem validator_sequence_monotone_witness :
    Changeset.isValid
      (((Changeset.new []).addError "a" "boom" [] .undef).addError "x" "required" [] .undef)
      = false :=
  (validator_sequence_monotone
    ((Changeset.new []).addError "a" "boom" [] .undef)
    [.required ["x"]]
    (((Changeset.new []).addError "a" "boom" [] .undef).addError "x" "required" [] .undef)
    rfl).1 rfl

/-- C3: `getField(f)` is the change value when the changes map contains `f`,
else the default value when the defaults map contains `f`, else `undefined`;
equivalently `getField(f) == (hasChange(f) ? getChange(f) : getDefault(f))`. -/
theorem getField_precedence (cs : Changeset) (field : String) :
    cs.getField field .undef =
      (match mapGet? cs.changes field with
       | some v => v
       | none =>
         match mapGet? cs.defaults field with
         | some d => d
         | none => .undef) ∧
    cs.getField field .undef =
      (if cs.hasChange field then cs.getChange field .undef
       else cs.getDefault field .undef) := by
  unfold Changeset.getField Changeset.getChange Changeset.getDefault
    Changeset.hasChange mapHas
  cases hc : mapGet? cs.changes field <;>
    cases hd : mapGet? cs.defaults field <;> simp [hc, hd]

/-- C4: `filter(fields)` yields changes and errors maps whose keys all come
from `fields`; each field of `fields` carries its pre-filter change (exactly
when one was present) and its pre-filter error list verbatim, every field of
`fields` is marked modified, and the defaults map is unchanged. -/
theorem filter_scoping (cs : Changeset) (fields : List String) :
    ((cs.filter fields).defaults = cs.defaults) ∧
    (∀ g, mapHas (cs.filter fields).changes g = true → g ∈ fields) ∧
    (∀ g, mapHas (cs.filter fields).errors g = true → g ∈ fields) ∧
    (∀ g ∈ fields, mapGet? (cs.filter fields).errors g = some (cs.getErrorList g)) ∧
    (∀ g ∈ fields, cs.hasChange g = true →
      mapGet? (cs.filter fields).changes g = mapGet? cs.changes g) ∧
    (∀ g ∈ fields, cs.hasChange g = false →
      mapHas (cs.filter fields).changes g = false) ∧
    (∀ g ∈ fields, (cs.filter fields).getModified g = true) := by
  unfold Changeset.filter
  refine ⟨foldl_filterStep_defaults cs fields _, ?_, ?_, ?_, ?_, ?_, ?_⟩
  · intro g hget
    by_contra hg
    unfold mapHas at hget
    rw [foldl_filterStep_changes_get, if_neg (fun hand => hg hand.1)] at hget
    simp [mapGet?] at hget
  · intro g hget
    by_contra hg
    unfold mapHas at hget
    rw [foldl_filterStep_errors_get, if_neg hg] at hget
    simp [mapGet?] at hget
  · intro g hg
    rw [foldl_filterStep_errors_get, if_pos hg]
  · intro g hg hc
    rw [foldl_filterStep_changes_get, if_pos ⟨hg, hc⟩]
  · intro g hg hc
    unfold mapHas
    rw [foldl_filterStep_changes_get,
      if_neg (fun hand => by rw [hc] at hand; exact Bool.false_ne_true hand.2)]
    simp [mapGet?]
  · intro g hg
    unfold Changeset.getModified
    rw [foldl_filterStep_modified_get, if_pos hg]
    rfl

/-- C4 witness: `filter(["a"])` on a changeset with a change and an error on
`"a"`: the pre-filter error list is copied verbatim. -/
theorem filter_scoping_witness :
    mapGet? ((((Changeset.new []).addError "a" "oops" [] .undef).filter ["a"])).errors "a"
      = some [⟨"oops", [], .undef⟩] :=
  ((filter_scoping ((Changeset.new []).addError "a" "oops" [] .undef) ["a"]).2.2.2.1
    "a" (List.mem_cons_self _ _)).trans rfl

/-- C5: `applyChanges()` returns the defaults map with every key present in
the changes map overwritten by its change value: keys only in defaults are
preserved, keys only in changes are added.  (The operation is a pure read of
the embedding state and modifies nothing.) -/
theorem applyChanges_merges (cs : Changeset)
    (h : (cs.changes.map Prod.fst).Nodup) (k : String) :
    mapGet? cs.applyChanges k =
      (match mapGet? cs.changes k with
       | some v => some v
       | none => mapGet? cs.defaults k) := by
  unfold Changeset.applyChanges Changeset.getDefaults Changeset.getChanges
  rw [mapGet?_mapMerge cs.defaults cs.changes k h]
  cases mapGet? cs.changes k <;> rfl

/-- C5 witness: defaults `{a:1, b:2}` with change `b:3`: `applyChanges`
reads `b` from the changes and `a` from the defaults. -/
theorem applyChanges_merges_witness :
    mapGet? (((Changeset.new [("a", .num 1), ("b", .num 2)]).addChange "b" (.num 3)).applyChanges) "b"
        = some (.num 3) ∧
    mapGet? (((Changeset.new [("a", .num 1), ("b", .num 2)]).addChange "b" (.num 3)).applyChanges) "a"
        = some (.num 1) :=
  ⟨(applyChanges_merges ((Changeset.new [("a", .num 1), ("b", .num 2)]).addChange "b" (.num 3))
      (by simp [Changeset.new, Changeset.addChange, mapOfList, mapSet]) "b").trans rfl,
   (applyChanges_merges ((Changeset.new [("a", .num 1), ("b", .num 2)]).addChange "b" (.num 3))
      (by simp [Changeset.new, Changeset.addChange, mapOfList, mapSet]) "a").trans rfl⟩

/-- C6: when `opts` names an operator absent from the comparator registry,
`validateLength` throws (`Except.error`, so no changeset — and in particular
no error record — is produced), and the registry contains exactly the six
word operators and their six symbolic aliases. -/
theorem validateLength_unknown_operator (cs : Changeset) (field : String)
    (opts : List (String × Int))
    (h : ∃ p ∈ opts, mapGet? COMPARISIONS p.1 = none) :
    (∃ op, mapGet? COMPARISIONS op = none ∧
      cs.validateLength field opts = .error ("No comparision for " ++ op)) ∧
    (∀ op, (mapGet? COMPARISIONS op).isSome = true ↔
      op ∈ (["==", ">=", "<=", "!=", ">", "<",
             "eq", "gte", "lte", "neq", "gt", "lt"] : List String)) := by
  constructor
  · exact validateLength_error_aux field (lengthValue (cs.getField field .undef)) opts cs h
  · intro op
    rw [mapGet?_isSome_iff]
    exact Iff.rfl

/-- C6 witness: `validateLength(f, {foo: 1})` throws the configuration
error. -/
theorem validateLength_unknown_operator_witness :
    (Changeset.new []).validateLength "f" [("foo", 1)] =
      .error ("No comparision for " ++ "foo") := by
  obtain ⟨op, _hop, he⟩ :=
    (validateLength_unknown_operator (Changeset.new []) "f" [("foo", 1)]
      ⟨("foo", 1), List.mem_cons_self _ _, rfl⟩).1
  have h2 : (Except.error ("No comparision for " ++ op) : Except String Changeset) =
      .error ("No comparision for " ++ "foo") := he.symm.trans rfl
  exact he.trans h2

/-- C7, counterexample: the claim says a value exposing a numeric `.length`
uses that property, so `validateLength(f, {eq: 0})` on effective value `""`
(whose `.length` is `0`) should pass `eq(0, 0)` and append no error.  The
code guards the `.length` access with JavaScript truthiness, so the falsy
empty string is passed to the comparator itself and `"" === 0` fails,
appending one error. -/
theorem validateLength_emptyString_counterexample :
    (((Changeset.new []).addChange "f" (.str "")).validateLength "f" [("eq", 0)]).map
        (fun out => out.getErrorList "f")
      = .ok [⟨"length", [.str "eq", .num 0], .undef⟩] := rfl

/-- C7 (amended): `validateLength` computes a length from the effective
value — nullish counts as the empty sequence (length 0), a TRUTHY value
exposing a numeric `.length` uses that property, and any other value
(including the falsy empty string) is itself passed to the comparator —
and for each entry of `opts` whose registered comparator fails it appends
one `{message: "length", values: [op, threshold]}` record, in the iteration
order of `opts`; `{gt: 18}` on effective length 18 appends exactly that one
error and on length 19 appends none. -/
theorem validateLength_semantics (cs : Changeset) (field : String)
    (opts : List (String × Int))
    (h : ∀ p ∈ opts, (mapGet? COMPARISIONS p.1).isSome = true) :
    (∃ out, cs.validateLength field opts = .ok out
      ∧ (∀ g, out.getErrorList g = cs.getErrorList g ++
          (if g = field then lengthFailList (lengthValue (cs.getField field .undef)) opts
           else []))
      ∧ out.changes = cs.changes ∧ out.defaults = cs.defaults
      ∧ out.modified = cs.modified
      ∧ out.valid =
          (cs.valid && (lengthFailList (lengthValue (cs.getField field .undef)) opts).isEmpty))
    ∧ (∀ v, isNullish v = true → lengthValue v = .num 0)
    ∧ (∀ s, s ≠ "" → lengthValue (.str s) = .num (s.length : Nat))
    ∧ lengthValue (.str "") = .str ""
    ∧ (∀ n, lengthValue (.num n) = .num n)
    ∧ ((((Changeset.new []).addChange "g" (.str "aaaaaaaaaaaaaaaaaa")).validateLength
          "g" [("gt", 18)]).map (fun c => c.getErrorList "g")
        = .ok [⟨"length", [.str "gt", .num 18], .undef⟩])
    ∧ ((((Changeset.new []).addChange "g" (.str "aaaaaaaaaaaaaaaaaaa")).validateLength
          "g" [("gt", 18)]).map (fun c => c.getErrorList "g")
        = .ok []) := by
  obtain ⟨out, ho, herr, hch, hdf, hmd, hvd⟩ :=
    validateLength_ok_aux field (lengthValue (cs.getField field .undef)) opts cs h
  refine ⟨⟨out, ho, herr, hch, hdf, hmd, hvd⟩, ?_, ?_, rfl, ?_, rfl, rfl⟩
  · intro v hv
    cases v
    case undef => rfl
    case null => rfl
    all_goals simp [isNullish] at hv
  · intro s hs
    simp [lengthValue, isNullish, truthy, hasNumericLength, numericLength, hs]
  · intro n
    simp [lengthValue, isNullish, hasNumericLength]

/-- C7 witness: the amended theorem applied to a changeset whose field `f`
holds the 2-character string `"ab"`, with `opts = {gt: 18}`: the comparator
fails on `gt(2, 18)` and exactly one error record is appended. -/
theorem validateLength_semantics_witness :
    lengthFailList (lengthValue (((Changeset.new []).addChange "f" (.str "ab")).getField
        "f" .undef)) [("gt", 18)]
      = [⟨"length", [.str "gt", .num 18], .undef⟩] := by
  obtain ⟨⟨out, ho, herr, _⟩, _⟩ :=
    validateLength_semantics ((Changeset.new []).addChange "f" (.str "ab")) "f" [("gt", 18)]
      (fun p hp => by
        rcases List.mem_cons.mp hp with rfl | hq
        · rfl
        · cases hq)
  have h1 := herr "f"
  have h2 : out.getErrorList "f" = [⟨"length", [.str "gt", .num 18], .undef⟩] := by
    have ho' : (((Changeset.new []).addChange "f" (.str "ab")).validateLength "f"
        [("gt", 18)]) = .ok out := ho
    have := ho'.symm.trans (rfl :
      (((Changeset.new []).addChange "f" (.str "ab")).validateLength "f" [("gt", 18)]) =
        .ok ((((Changeset.new []).addChange "f" (.str "ab")).addError "f" "length"
          [.str "gt", .num 18] .undef)))
    cases this
    rfl
  rw [h1] at h2
  simpa using h2

/-- C8: `validateRequired(fields)` appends a `{message: "required",
values: []}` record to a field, once per occurrence in `fields`, exactly
when its effective value is `undefined`, `null`, or the empty string —
numeric zero and `false` are not missing and produce no error. -/
theorem validateRequired_semantics (cs : Changeset) (fields : List String) :
    (∀ f, (cs.validateRequired fields).getErrorList f =
      cs.getErrorList f ++
        List.replicate
          (if (isNullish (cs.getField f .undef) || isEmptyString (cs.getField f .undef)) = true
           then fields.count f else 0)
          ⟨"required", [], .undef⟩) ∧
    (∀ v, (isNullish v || isEmptyString v) = true ↔
      (v = .undef ∨ v = .null ∨ v = .str "")) := by
  constructor
  · intro f
    exact validateRequired_fold_aux cs f fields cs
  · intro v
    cases v <;> simp [isNullish, isEmptyString]

/-- C9: `validateAcceptance(field)` returns the changeset unchanged when the
effective value is truthy, and otherwise appends exactly one
`{message: "acceptance", values: []}` record to that field, leaving every
other field's errors and the changes/defaults untouched. -/
theorem validateAcceptance_semantics (cs : Changeset) (field : String) :
    (truthy (cs.getField field .undef) = true → cs.validateAcceptance field = cs) ∧
    (truthy (cs.getField field .undef) = false →
      (cs.validateAcceptance field).getErrorList field =
          cs.getErrorList field ++ [⟨"acceptance", [], .undef⟩] ∧
      (∀ g, ¬(g = field) →
        (cs.validateAcceptance field).getErrorList g = cs.getErrorList g) ∧
      (cs.validateAcceptance field).valid = false ∧
      (cs.validateAcceptance field).changes = cs.changes ∧
      (cs.validateAcceptance field).defaults = cs.defaults) := by
  constructor
  · intro ht
    unfold Changeset.validateAcceptance
    rw [if_pos ht]
  · intro hf
    have hcond : ¬(truthy (cs.getField field .undef) = true) := by simp [hf]
    unfold Changeset.validateAcceptance
    rw [if_neg hcond]
    refine ⟨?_, ?_, rfl, rfl, rfl⟩
    · rw [getErrorList_addError, if_pos rfl]
    · intro g hg
      rw [getErrorList_addError, if_neg (fun e => hg e.symm)]

/-- C9 witness: acceptance on an absent (falsy) field appends the single
`"acceptance"` record. -/
theorem validateAcceptance_semantics_witness :
    ((Changeset.new []).validateAcceptance "t").getErrorList "t" =
      [⟨"acceptance", [], .undef⟩] :=
  (((validateAcceptance_semantics (Changeset.new []) "t").2 rfl).1).trans rfl

/-- C10: after `addChange(f, undefined)` on a changeset holding a non-absent
default for `f`, the key is present in the changes map (`hasChange` true),
`getField(f)` returns `undefined` without falling back to the default, and
`validateRequired([f])` then appends a `"required"` error for `f`. -/
theorem addChange_undefined_shadows_default (cs : Changeset) (f : String) (d : JSValue)
    (_hd : mapGet? cs.defaults f = some d) (_hnn : isNullish d = false) :
    ((cs.addChange f .undef).hasChange f = true) ∧
    ((cs.addChange f .undef).getField f .undef = .undef) ∧
    (((cs.addChange f .undef).validateRequired [f]).getErrorList f
      = (cs.addChange f .undef).getErrorList f ++ [⟨"required", [], .undef⟩]) := by
  have hg : (cs.addChange f .undef).getField f .undef = .undef := by
    unfold Changeset.getField Changeset.getChange Changeset.addChange
    dsimp only
    rw [mapGet?_mapSet, if_pos rfl]
    rfl
  refine ⟨?_, hg, ?_⟩
  · unfold Changeset.hasChange mapHas Changeset.addChange
    dsimp only
    rw [mapGet?_mapSet, if_pos rfl]
    rfl
  · show ((cs.addChange f .undef).requiredStep (cs.addChange f .undef) f).getErrorList f = _
    unfold Changeset.requiredStep
    rw [hg]
    rw [if_pos (show (isNullish JSValue.undef || isEmptyString JSValue.undef) = true from rfl)]
    rw [getErrorList_addError, if_pos rfl]

/-- C10 witness: defaults `{a: 5}`, then `addChange("a", undefined)` and
`validateRequired(["a"])`: a `"required"` error is recorded although a
non-absent default exists. -/
theorem addChange_undefined_shadows_default_witness :
    (((Changeset.new [("a", .num 5)]).addChange "a" .undef).validateRequired
        ["a"]).getErrorList "a" = [⟨"required", [], .undef⟩] :=
  ((addChange_undefined_shadows_default (Changeset.new [("a", .num 5)]) "a" (.num 5)
    rfl rfl).2.2).trans rfl

end ClaimTheorems

end TsChangeset
